import Mathlib

/-!
Shallow embedding of the review-analysis repository (utils.py / api.py).

The analysis core works on in-memory tables.  DataFrames are modelled as
Lists of typed rows; Python dicts (which preserve insertion order) are
modelled as association lists; pandas' stable sorts are modelled by a
stable insertion sort; float arithmetic on percentages is modelled by
exact rational arithmetic (all percentage computations in the source are
single divisions and multiplications of small integers).
-/

/-- Python `str.strip()` whitespace set. -/
def pyIsSpace (c : Char) : Bool :=
  c = ' ' || c = '\t' || c = '\n' || c = '\r' || c = '\x0b' || c = '\x0c'

/-- Model of Python `str.strip()`: drop whitespace from both ends. -/
def pyStrip (s : String) : String :=
  String.mk (((s.data.dropWhile pyIsSpace).reverse.dropWhile pyIsSpace).reverse)

/-- Distinct elements of a list in first-seen order; models both
`pandas.Series.unique()` and the key order of an insertion-ordered dict. -/
def firstSeenDistinct (l : List String) : List String :=
  l.foldl (fun acc c => if c ∈ acc then acc else acc ++ [c]) []

/-- One step of `d[k] = d.get(k, 0) + 1` on an insertion-ordered dict
modelled as an association list: increment in place, or append `(k, 1)`. -/
def bump : List (String × Nat) → String → List (String × Nat)
  | [], k => [(k, 1)]
  | (a, n) :: rest, k =>
    if a = k then (a, n + 1) :: rest else (a, n) :: bump rest k

/-- `d[k] = v` on an insertion-ordered dict: overwrite in place (keeping the
original position, as Python dicts do), or append. -/
def upsert : List (String × List String) → String → List String → List (String × List String)
  | [], k, v => [(k, v)]
  | (a, w) :: rest, k, v =>
    if a = k then (a, v) :: rest else (a, w) :: upsert rest k v

/-- Stable insertion step: `x` passes every `y` with `keep y x = true`
(`y` must stay in front of `x`) and lands in front of the first other one. -/
def sIns (keep : α → α → Bool) (x : α) : List α → List α
  | [] => [x]
  | y :: ys => if keep y x then y :: sIns keep x ys else x :: y :: ys

/-- Stable sort by repeated insertion; models pandas stable sorting
(`sort_values` on the small frames at hand, `sorted`, sorted group keys). -/
def sSort (keep : α → α → Bool) (l : List α) : List α :=
  l.foldr (sIns keep) []

/-- Ordering for `sort_values('count', ascending=False)`: a row stays in
front of a later row iff its count is strictly larger. -/
def countDesc (y x : String × Nat) : Bool := decide (x.2 < y.2)

/-- Three-way code-point comparison of character lists (the lexicographic
order Python uses on strings). -/
def cmpChars : List Char → List Char → Ordering
  | [], [] => Ordering.eq
  | [], _ :: _ => Ordering.lt
  | _ :: _, [] => Ordering.gt
  | a :: as, b :: bs =>
    if a.toNat < b.toNat then Ordering.lt
    else if b.toNat < a.toNat then Ordering.gt
    else cmpChars as bs

/-- Model of Python `<` on strings: strict lexicographic comparison by
code point. -/
def pyStrLt (y x : String) : Bool := decide (cmpChars y.data x.data = Ordering.lt)

/-- Ordering for ascending alphabetical string sorting. -/
def strAsc (y x : String) : Bool := pyStrLt y x

/-- A processed review row: the columns of the uploaded table that the
analysis reads (`category`, and the derived `aspects_list`). -/
structure Review where
  category : String
  aspects_list : List String
deriving Repr, DecidableEq

/-- A raw review row as produced by `pd.read_csv`: the `category` cell and
the `aspects` cell (`none` models NaN from an empty field). -/
structure RawReviewRow where
  category : String
  aspects : Option String
deriving Repr, DecidableEq

/-- A raw uploaded table after `pd.read_csv` (reading the file is library
I/O outside the core): its column names, its rows, and whether pandas
inferred dtype `object` for the `aspects` column. -/
structure RawReviewTable where
  header : List String
  rows : List RawReviewRow
  aspectsIsObject : Bool
deriving Repr, DecidableEq

def required_columns : List String := ["review_id", "review_text", "category", "aspects"]

def joinComma : List String → String
  | [] => ""
  | [x] => x
  | x :: xs => x ++ ", " ++ joinComma xs

/-- Helper for `pySplit`: accumulate the current chunk (reversed) while
walking the characters, cutting at every separator. -/
def splitAux (sep : Char) : List Char → List Char → List (List Char)
  | acc, [] => [acc.reverse]
  | acc, c :: cs =>
    if c = sep then acc.reverse :: splitAux sep [] cs
    else splitAux sep (c :: acc) cs

/-- Model of Python `str.split(sep)` with a one-character separator: cut at
every occurrence, keeping empty chunks (so `pySplit ',' "" = [""]` and
`pySplit ',' "a,,b" = ["a", "", "b"]`, as in Python). -/
def pySplit (sep : Char) (s : String) : List String :=
  (splitAux sep [] s.data).map String.mk

/-- `missing_columns = [col for col in required_columns if col not in df.columns]`. -/
def missingColumns (t : RawReviewTable) : List String :=
  required_columns.filter (fun c => decide (¬ c ∈ t.header))

/-- `utils.process_csv` after the `pd.read_csv` call: reject missing
required columns, reject a non-object `aspects` column, otherwise derive
`aspects_list` by splitting on `,` and stripping each token.  The source
signals failure by `st.error(msg)` plus returning `None`; that
error-message-and-no-result outcome is modelled as `Except.error msg`. -/
def process_csv (t : RawReviewTable) : Except String (List Review) :=
  if missingColumns t ≠ [] then
    Except.error ("Error: The following required columns are missing: " ++
      joinComma (missingColumns t))
  else if t.aspectsIsObject then
    Except.ok (t.rows.map (fun r =>
      { category := r.category
        aspects_list :=
          match r.aspects with
          | some s => (pySplit ',' s).map pyStrip
          | none => [] }))
  else
    Except.error "Error: The aspects column format is incorrect. It should be a comma-separated string."

/-- One row of the analysis DataFrame built by `analyze_aspects`. -/
structure AspectStat where
  category : String
  aspect : String
  count : Nat
  total_reviews : Nat
  percentage : ℚ
  is_low_percentage : Bool
deriving Repr, DecidableEq

/-- One row of the pivot DataFrame (aspect × category → percentage). -/
structure PivotRow where
  aspect : String
  cells : List (String × ℚ)
deriving Repr, DecidableEq

/-- The nested counting loop of `analyze_aspects`:
`for aspect_list in rows: for aspect in aspect_list: counts[aspect] += 1`. -/
def countAspects (rows : List Review) : List (String × Nat) :=
  rows.foldl (fun m r => r.aspects_list.foldl bump m) []

/-- Mean of a list of rationals, 0 for the empty list (the `fill_value=0`
of the pivot; `mean` is the default `pivot_table` aggregation). -/
def meanOrZero (l : List ℚ) : ℚ := if l = [] then 0 else l.sum / l.length

/-- `DataFrame.pivot_table(index='aspect', columns='category',
values='percentage', fill_value=0)`: index and columns are the distinct
aspects and categories sorted ascending (pandas default `sort=True`). -/
def pivot_table (analysis : List AspectStat) : List PivotRow :=
  let aspects := sSort strAsc (firstSeenDistinct (analysis.map (·.aspect)))
  let cats := sSort strAsc (firstSeenDistinct (analysis.map (·.category)))
  aspects.map (fun a =>
    { aspect := a
      cells := cats.map (fun c =>
        (c, meanOrZero ((analysis.filter
              (fun r => decide (r.aspect = a ∧ r.category = c))).map (·.percentage)))) })

/-- The body of the per-category loop of `analyze_aspects`: filter this
category's reviews, count their aspect tags, and emit one stat row per
counted (category, aspect) pair (`total_reviews` is the category's review
count). -/
def statBlock (df : List Review) (cat : String) : List AspectStat :=
  (countAspects (df.filter (fun r => decide (r.category = cat)))).map (fun p =>
    { category := cat
      aspect := p.1
      count := p.2
      total_reviews := (df.filter (fun r => decide (r.category = cat))).length
      percentage := ((p.2 : ℚ) / ((df.filter (fun r => decide (r.category = cat))).length : ℚ)) * 100
      is_low_percentage :=
        decide (((p.2 : ℚ) / ((df.filter (fun r => decide (r.category = cat))).length : ℚ)) * 100 < 5) })

/-- The long-form analysis table of `analyze_aspects`: one `statBlock`
per first-seen category. -/
def analysisRows (df : List Review) : List AspectStat :=
  (firstSeenDistinct (df.map (·.category))).flatMap (statBlock df)

/-- `utils.analyze_aspects`.  The Python function returns the sentinel
`(None, None)` for an empty input table and for an empty analysis frame;
both are modelled as `none`. -/
def analyze_aspects (df : List Review) : Option (List AspectStat × List PivotRow) :=
  if df.length = 0 then none
  else if analysisRows df = [] then none
  else some (analysisRows df, pivot_table (analysisRows df))

/-- The `groupby('aspect')['count'].sum()` table of `get_top_aspects`:
group keys sorted ascending (pandas `groupby` default `sort=True`), one
summed count per key. -/
def aspectTotals (analysis : List AspectStat) : List (String × Nat) :=
  (sSort strAsc (firstSeenDistinct (analysis.map (·.aspect)))).map (fun a =>
    (a, ((analysis.filter (fun r => decide (r.aspect = a))).map (·.count)).sum))

/-- `utils.get_top_aspects`: group the stat rows by aspect, sum `count`
per aspect, sort descending by total and keep the first `top_n` rows.
`None` for an empty input is modelled as `none`. -/
def get_top_aspects (analysis : List AspectStat) (top_n : Nat) : Option (List (String × Nat)) :=
  if analysis.length = 0 then none
  else some ((sSort countDesc (aspectTotals analysis)).take top_n)

/-- A category-catalog row as fed to the category aggregators: the
`name` and `aspectsCount` columns, plus the caller-deserialized
`aspects_parsed` sequence (a Python list — duplicates are kept). -/
structure CategoryRow where
  name : String
  aspectsCount : Int
  aspects_parsed : List String
deriving Repr, DecidableEq

/-- The result dict of `analyze_category_aspects`.  `all_aspects` is a
Python set in the source; it is modelled as its underlying collection of
distinct elements (no claim depends on set iteration order). -/
structure CatAnalysis where
  all_aspects : List String
  aspect_counts : List (String × Nat)
  aspect_freq : List (String × Nat)
  categories_no_aspects : List CategoryRow
deriving Repr, DecidableEq

/-- `utils.analyze_category_aspects`: filter the rows with
`aspectsCount == 0`, count every occurrence in every row's
`aspects_parsed` list, and sort the counter table descending by count
(`sort_values('count', ascending=False)` on the insertion-ordered dict). -/
def analyze_category_aspects (df : List CategoryRow) : CatAnalysis :=
  let counts := df.foldl (fun m r => r.aspects_parsed.foldl bump m) []
  { all_aspects := firstSeenDistinct (df.flatMap (·.aspects_parsed))
    aspect_counts := counts
    aspect_freq := sSort countDesc counts
    categories_no_aspects := df.filter (fun r => decide (r.aspectsCount = 0)) }

/-- One row of the aspect × category presence matrix. -/
structure MatrixRow where
  aspect : String
  cells : List (String × Nat)
deriving Repr, DecidableEq

/-- `utils.create_aspect_category_matrix`: union of all aspects, a
`name → aspects` dict where a repeated name overwrites the earlier entry,
then one row per aspect in ascending order with 0/1 membership cells.
(The source stores `set(row['aspects_parsed'])` as the dict value;
the model stores the list — only membership in it is ever used.) -/
def create_aspect_category_matrix (df : List CategoryRow) : List MatrixRow :=
  let all_aspects := firstSeenDistinct (df.flatMap (·.aspects_parsed))
  let category_aspects := df.foldl (fun m r => upsert m r.name r.aspects_parsed) []
  (sSort strAsc all_aspects).map (fun a =>
    { aspect := a
      cells := category_aspects.map (fun p => (p.1, if a ∈ p.2 then 1 else 0)) })

/-- Drop leading JSON/Python whitespace characters. -/
def dropWs : List Char → List Char
  | [] => []
  | c :: cs => if c = ' ' || c = '\t' || c = '\n' || c = '\r' then dropWs cs else c :: cs

/-- Scan the body of a quoted string up to the closing quote `q`.
Escape sequences are out of scope (the aspect labels in this repository
contain none) and make the scan fail. -/
def scanStr (q : Char) : List Char → Option (List Char × List Char)
  | [] => none
  | c :: cs =>
    if c = q then some ([], cs)
    else if c = '\\' then none
    else (scanStr q cs).map (fun p => (c :: p.1, p.2))

/-- Parse the element list of a `[...]` literal of quoted strings,
starting right after the opening bracket (whitespace already dropped).
`quotes` is the set of accepted quote characters and `allowTrail`
whether a trailing comma before `]` is accepted.  Fuel-indexed. -/
def parseItems (quotes : List Char) (allowTrail : Bool) : Nat → List Char → Option (List String)
  | 0, _ => none
  | _ + 1, [] => none
  | fuel + 1, c :: rest =>
    if c ∈ quotes then
      match scanStr c rest with
      | none => none
      | some (chars, rest2) =>
        match dropWs rest2 with
        | ']' :: tail => if dropWs tail = [] then some [String.mk chars] else none
        | ',' :: tail =>
          match dropWs tail with
          | ']' :: tail2 =>
            if allowTrail && dropWs tail2 = [] then some [String.mk chars] else none
          | t2 => (parseItems quotes allowTrail fuel t2).map (String.mk chars :: ·)
        | _ => none
    else none

/-- Parse a whole string as a `[...]` list of quoted string literals,
rejecting any trailing garbage. -/
def parseStrList (quotes : List Char) (allowTrail : Bool) (s : String) : Option (List String) :=
  match dropWs s.data with
  | '[' :: rest =>
    match dropWs rest with
    | ']' :: tail => if dropWs tail = [] then some [] else none
    | r2 => parseItems quotes allowTrail (r2.length + 1) r2
  | _ => none

/-- Model of `json.loads` restricted to the shape the `aspects` column
carries in this repository: a JSON array of strings (double quotes only,
no trailing comma).  Any other payload is a parse failure. -/
def jsonLoadsList (s : String) : Option (List String) :=
  parseStrList ['"'] false s

/-- Model of `ast.literal_eval` restricted to list-of-string literals:
single- or double-quoted elements, trailing comma accepted. -/
def literalEvalList (s : String) : Option (List String) :=
  parseStrList ['\'', '"'] true s

/-- The per-cell lambda of the normalization step:
`parse(x) if isinstance(x, str) and x.strip() else []`.  `none` input
models a non-string cell (NaN); a raised parse exception is `none`. -/
def parseCell (parse : String → Option (List String)) (x : Option String) : Option (List String) :=
  match x with
  | some s => if pyStrip s ≠ "" then parse s else some []
  | none => some []

/-- `Series.apply` under a `try`: the lambda runs on every cell in order
and a single raised exception aborts the whole column assignment. -/
def applyCol (f : α → Option β) : List α → Option (List β)
  | [] => some []
  | x :: xs =>
    match f x with
    | none => none
    | some y => (applyCol f xs).map (y :: ·)

/-- The aspects-normalization step of `api.upload_categories_csv`
(lines 146–156): try to build `aspects_parsed` with `json.loads` on every
cell; if that raises, rebuild the whole column with `ast.literal_eval`;
if that raises too, the exception leaves the normalization step (it is
only caught by the route's generic 500 handler). -/
def upload_categories_normalize (col : List (Option String)) : Except Unit (List (List String)) :=
  match applyCol (parseCell jsonLoadsList) col with
  | some r => Except.ok r
  | none =>
    match applyCol (parseCell literalEvalList) col with
    | some r => Except.ok r
    | none => Except.error ()

/-- Ordered-dict lookup on an association list (first matching key). -/
def lookupKV : List (String × β) → String → Option β
  | [], _ => none
  | (k, v) :: rest, a => if k = a then some v else lookupKV rest a

/-- Number of category rows whose parsed aspects sequence contains `a`
(the quantity the spec calls "categories containing the aspect"). -/
def categoriesContaining (df : List CategoryRow) (a : String) : Nat :=
  (df.filter (fun r => decide (a ∈ r.aspects_parsed))).length

/-- The parsed aspects of the last row named `c` (empty if no such row):
the category→aspects mapping that survives dict overwriting. -/
def lastAspectsOf (df : List CategoryRow) (c : String) : List String :=
  ((df.reverse.find? (fun r => decide (r.name = c))).map (·.aspects_parsed)).getD []

/-- Witness input: twenty reviews of one category, aspect `x` tagged once,
so that `x` sits at exactly 5% of the reviews. -/
def df20 : List Review := ⟨"C", ["x"]⟩ :: List.replicate 19 ⟨"C", []⟩

/-- The single stat row `analyze_aspects` derives from `df20` (the
rational fields are written as the computation performs them; they
evaluate to percentage 5.0 and a false low flag). -/
def stat20 : AspectStat :=
  { category := "C"
    aspect := "x"
    count := 1
    total_reviews := 20
    percentage := (((1 : ℕ) : ℚ) / ((20 : ℕ) : ℚ)) * 100
    is_low_percentage := decide ((((1 : ℕ) : ℚ) / ((20 : ℕ) : ℚ)) * 100 < 5) }

/-- Witness input: the worked example of the spec (three reviews). -/
def dfEx : List Review := [⟨"E", ["s", "b"]⟩, ⟨"E", ["s"]⟩, ⟨"H", ["w"]⟩]

/-- Counterexample input: one category row whose parsed aspects list
repeats the same aspect. -/
def dupAspectDf : List CategoryRow := [⟨"A", 2, ["x", "x"]⟩]

/-- Witness input: two catalog rows sharing the name `A`. -/
def dupNameDf : List CategoryRow := [⟨"A", 1, ["x"]⟩, ⟨"A", 1, ["y"]⟩]

/-- Counterexample input: two stat rows with tied counts where aspect `b`
is seen first, so first-seen order and alphabetical order disagree. -/
def tiedStats : List AspectStat :=
  [⟨"c", "b", 1, 2, 50, false⟩, ⟨"c", "a", 1, 2, 50, false⟩]

/-- Witness input: a raw upload whose aspects cell has a double comma and
padded whitespace. -/
def rawT10 : RawReviewTable :=
  ⟨required_columns, [⟨"C", some "a,, b "⟩], true⟩

def procDf10 : List Review := [⟨"C", ["a", "", "b"]⟩]

theorem lookupKV_bump_self (m : List (String × Nat)) (k : String) :
    lookupKV (bump m k) k = some ((lookupKV m k).getD 0 + 1) := by
  induction m with
  | nil => simp [bump, lookupKV]
  | cons p rest ih =>
    obtain ⟨a, n⟩ := p
    by_cases h : a = k
    · subst h
      simp [bump, lookupKV]
    · simp [bump, lookupKV, h, ih]

theorem lookupKV_bump_other (m : List (String × Nat)) (k a : String) (h : k ≠ a) :
    lookupKV (bump m k) a = lookupKV m a := by
  induction m with
  | nil => simp [bump, lookupKV, h]
  | cons p rest ih =>
    obtain ⟨b, n⟩ := p
    by_cases hb : b = k
    · subst hb
      simp [bump, lookupKV, h]
    · simp [bump, lookupKV, hb, ih]

theorem keys_bump (m : List (String × Nat)) (k : String) :
    (bump m k).map (·.1) =
      if k ∈ m.map (·.1) then m.map (·.1) else m.map (·.1) ++ [k] := by
  induction m with
  | nil => simp [bump]
  | cons p rest ih =>
    obtain ⟨a, n⟩ := p
    by_cases h : a = k
    · subst h
      simp [bump]
    · have hne : k = a ↔ False := by simp [Ne.symm h]
      by_cases hk : k ∈ rest.map (·.1)
      · simp [bump, h, ih, hk, hne]
      · simp [bump, h, ih, hk, hne]

theorem getD_lookupKV_foldl_bump (occ : List String) (m : List (String × Nat)) (a : String) :
    (lookupKV (occ.foldl bump m) a).getD 0 = (lookupKV m a).getD 0 + occ.count a := by
  induction occ generalizing m with
  | nil => simp
  | cons c rest ih =>
    by_cases h : c = a
    · subst h
      simp only [List.foldl_cons, ih, lookupKV_bump_self]
      simp [List.count_cons]
      omega
    · simp only [List.foldl_cons, ih, lookupKV_bump_other _ _ _ h]
      simp [List.count_cons, h]

theorem lookupKV_foldl_bump_eq_none (occ : List String) (m : List (String × Nat)) (a : String) :
    lookupKV (occ.foldl bump m) a = none ↔ lookupKV m a = none ∧ occ.count a = 0 := by
  induction occ generalizing m with
  | nil => simp
  | cons c rest ih =>
    by_cases h : c = a
    · subst h
      simp only [List.foldl_cons, ih, lookupKV_bump_self]
      simp [List.count_cons]
    · simp only [List.foldl_cons, ih, lookupKV_bump_other _ _ _ h]
      simp [List.count_cons, h]

theorem keys_foldl_bump (occ : List String) (m : List (String × Nat)) :
    (occ.foldl bump m).map (·.1) =
      occ.foldl (fun acc c => if c ∈ acc then acc else acc ++ [c]) (m.map (·.1)) := by
  induction occ generalizing m with
  | nil => simp
  | cons c rest ih =>
    simp only [List.foldl_cons, ih, keys_bump]

theorem sum_snd_bump (m : List (String × Nat)) (k : String) :
    ((bump m k).map (·.2)).sum = (m.map (·.2)).sum + 1 := by
  induction m with
  | nil => simp [bump]
  | cons p rest ih =>
    obtain ⟨a, n⟩ := p
    by_cases h : a = k
    · subst h
      simp [bump]
      omega
    · simp [bump, h, ih]
      omega

theorem sum_snd_foldl_bump (occ : List String) (m : List (String × Nat)) :
    ((occ.foldl bump m).map (·.2)).sum = (m.map (·.2)).sum + occ.length := by
  induction occ generalizing m with
  | nil => simp
  | cons c rest ih =>
    simp only [List.foldl_cons, ih, sum_snd_bump, List.length_cons]
    omega

theorem mem_foldl_seen (l : List String) :
    ∀ (acc : List String) (x : String),
      x ∈ l.foldl (fun acc c => if c ∈ acc then acc else acc ++ [c]) acc ↔ x ∈ acc ∨ x ∈ l := by
  induction l with
  | nil => simp
  | cons c rest ih =>
    intro acc x
    by_cases hc : c ∈ acc
    · rw [List.foldl_cons, if_pos hc, ih]
      constructor
      · rintro (h | h)
        · exact Or.inl h
        · exact Or.inr (List.mem_cons_of_mem _ h)
      · rintro (h | h)
        · exact Or.inl h
        · rcases List.mem_cons.mp h with h | h
          · exact Or.inl (h ▸ hc)
          · exact Or.inr h
    · rw [List.foldl_cons, if_neg hc, ih]
      constructor
      · rintro (h | h)
        · rcases List.mem_append.mp h with h | h
          · exact Or.inl h
          · exact Or.inr (List.mem_cons.mpr (Or.inl (List.mem_singleton.mp h)))
        · exact Or.inr (List.mem_cons_of_mem _ h)
      · rintro (h | h)
        · exact Or.inl (List.mem_append.mpr (Or.inl h))
        · rcases List.mem_cons.mp h with rfl | h
          · exact Or.inl (List.mem_append.mpr (Or.inr (List.mem_singleton.mpr rfl)))
          · exact Or.inr h

theorem mem_firstSeenDistinct (l : List String) (x : String) :
    x ∈ firstSeenDistinct l ↔ x ∈ l := by
  rw [firstSeenDistinct, mem_foldl_seen]
  simp

theorem nodup_foldl_seen (l : List String) :
    ∀ (acc : List String), acc.Nodup →
      (l.foldl (fun acc c => if c ∈ acc then acc else acc ++ [c]) acc).Nodup := by
  induction l with
  | nil => exact fun acc h => h
  | cons c rest ih =>
    intro acc hacc
    by_cases hc : c ∈ acc
    · rw [List.foldl_cons, if_pos hc]
      exact ih acc hacc
    · rw [List.foldl_cons, if_neg hc]
      refine ih _ ?_
      simp [List.nodup_append, hacc, hc]

theorem nodup_firstSeenDistinct (l : List String) : (firstSeenDistinct l).Nodup :=
  nodup_foldl_seen l [] List.nodup_nil

theorem applyCol_eq_none {f : α → Option β} {l : List α} :
    applyCol f l = none ↔ ∃ x ∈ l, f x = none := by
  induction l with
  | nil => simp [applyCol]
  | cons x xs ih =>
    cases hx : f x with
    | none =>
      simp only [applyCol, hx]
      exact ⟨fun _ => ⟨x, List.mem_cons_self x xs, hx⟩, fun _ => trivial⟩
    | some y =>
      cases hxs : applyCol f xs with
      | none =>
        obtain ⟨z, hz, hfz⟩ := ih.mp hxs
        simp only [applyCol, hx, hxs, Option.map_none']
        exact ⟨fun _ => ⟨z, List.mem_cons_of_mem _ hz, hfz⟩, fun _ => trivial⟩
      | some ys =>
        simp only [applyCol, hx, hxs, Option.map_some']
        constructor
        · intro h
          simp at h
        · rintro ⟨z, hz, hfz⟩
          rcases List.mem_cons.mp hz with rfl | hz
          · rw [hx] at hfz
            simp at hfz
          · have := ih.mpr ⟨z, hz, hfz⟩
            rw [hxs] at this
            simp at this

theorem applyCol_zip {f : α → Option β} :
    ∀ {l : List α} {ys : List β}, applyCol f l = some ys →
      ∀ p ∈ l.zip ys, f p.1 = some p.2 := by
  intro l
  induction l with
  | nil => intro ys h p hp; simp [List.zip] at hp
  | cons x xs ih =>
    intro ys h p hp
    cases hx : f x with
    | none => simp [applyCol, hx] at h
    | some y =>
      cases hxs : applyCol f xs with
      | none => simp [applyCol, hx, hxs] at h
      | some zs =>
        simp only [applyCol, hx, hxs, Option.map_some', Option.some.injEq] at h
        subst h
        rcases List.mem_cons.mp hp with rfl | hp
        · exact hx
        · exact ih hxs p hp

theorem mem_sIns {keep : α → α → Bool} {x a : α} :
    ∀ {l : List α}, a ∈ sIns keep x l ↔ a = x ∨ a ∈ l := by
  intro l
  induction l with
  | nil => simp [sIns]
  | cons y ys ih =>
    by_cases h : keep y x = true
    · simp only [sIns, if_pos h, List.mem_cons, ih]
      tauto
    · simp only [sIns, if_neg h, List.mem_cons]

theorem sIns_perm (keep : α → α → Bool) (x : α) :
    ∀ (l : List α), (sIns keep x l).Perm (x :: l) := by
  intro l
  induction l with
  | nil => simp [sIns]
  | cons y ys ih =>
    by_cases h : keep y x = true
    · rw [sIns, if_pos h]
      exact (ih.cons y).trans (List.Perm.swap x y ys)
    · rw [sIns, if_neg h]

theorem sSort_perm (keep : α → α → Bool) : ∀ (l : List α), (sSort keep l).Perm l := by
  intro l
  induction l with
  | nil => simp [sSort]
  | cons x xs ih =>
    have : sSort keep (x :: xs) = sIns keep x (sSort keep xs) := rfl
    rw [this]
    exact (sIns_perm keep x (sSort keep xs)).trans (ih.cons x)

theorem mem_sSort {keep : α → α → Bool} {l : List α} {a : α} :
    a ∈ sSort keep l ↔ a ∈ l :=
  (sSort_perm keep l).mem_iff

theorem pairwise_sIns {keep : α → α → Bool} {P : α → α → Prop}
    (htrans : Transitive P)
    (h1 : ∀ a b, keep a b = false → P b a)
    (h2 : ∀ a b, keep a b = true → P a b)
    (x : α) : ∀ {l : List α}, l.Pairwise P → (sIns keep x l).Pairwise P := by
  intro l
  induction l with
  | nil =>
    intro _
    simp [sIns]
  | cons y ys ih =>
    intro hl
    rcases List.pairwise_cons.mp hl with ⟨hy, hys⟩
    by_cases h : keep y x = true
    · rw [sIns, if_pos h]
      refine List.pairwise_cons.mpr ⟨?_, ih hys⟩
      intro z hz
      rcases mem_sIns.mp hz with rfl | hz
      · exact h2 y z h
      · exact hy z hz
    · rw [sIns, if_neg h]
      refine List.pairwise_cons.mpr ⟨?_, hl⟩
      intro z hz
      rcases List.mem_cons.mp hz with rfl | hz
      · exact h1 z x (by simpa using h)
      · exact htrans (h1 y x (by simpa using h)) (hy z hz)

theorem pairwise_sSort {keep : α → α → Bool} {P : α → α → Prop}
    (htrans : Transitive P)
    (h1 : ∀ a b, keep a b = false → P b a)
    (h2 : ∀ a b, keep a b = true → P a b)
    (l : List α) : (sSort keep l).Pairwise P := by
  induction l with
  | nil => simp [sSort]
  | cons x xs ih =>
    exact pairwise_sIns htrans h1 h2 x ih

theorem filter_sIns {keep : α → α → Bool} {p : α → Bool} {x : α}
    (hpk : ∀ y, p x = true → p y = true → keep y x = false) :
    ∀ (l : List α), (sIns keep x l).filter p =
      if p x then x :: l.filter p else l.filter p := by
  intro l
  induction l with
  | nil =>
    by_cases hx : p x = true
    · simp [sIns, hx]
    · simp [sIns, List.filter_cons, hx]
  | cons y ys ih =>
    by_cases h : keep y x = true
    · rw [sIns, if_pos h]
      by_cases hy : p y = true
      · have hx : p x = false := by
          by_contra hx
          have := hpk y (by simpa using hx) hy
          rw [h] at this
          simp at this
        rw [List.filter_cons, if_pos hy, ih, if_neg (by simp [hx]), if_neg (by simp [hx]),
          List.filter_cons, if_pos hy]
      · rw [List.filter_cons, if_neg hy, ih, List.filter_cons, if_neg hy]
    · rw [sIns, if_neg h]
      by_cases hx : p x = true
      · simp [List.filter_cons, hx]
      · simp [List.filter_cons, hx]

theorem filter_sSort {keep : α → α → Bool} {p : α → Bool}
    (h : ∀ a b, p a = true → p b = true → keep a b = false) :
    ∀ (l : List α), (sSort keep l).filter p = l.filter p := by
  intro l
  induction l with
  | nil => simp [sSort]
  | cons x xs ih =>
    have hstep : sSort keep (x :: xs) = sIns keep x (sSort keep xs) := rfl
    rw [hstep, filter_sIns (fun y hx hy => h y x hy hx), ih]
    by_cases hx : p x = true
    · rw [if_pos hx, List.filter_cons, if_pos hx]
    · rw [if_neg (by simpa using hx), List.filter_cons, if_neg (by simpa using hx)]

theorem lookupKV_upsert_self (m : List (String × List String)) (k : String) (v : List String) :
    lookupKV (upsert m k v) k = some v := by
  induction m with
  | nil => simp [upsert, lookupKV]
  | cons p rest ih =>
    obtain ⟨a, w⟩ := p
    by_cases h : a = k
    · subst h
      simp [upsert, lookupKV]
    · simp [upsert, lookupKV, h, ih]

theorem lookupKV_upsert_other (m : List (String × List String)) (k a : String) (v : List String)
    (h : k ≠ a) : lookupKV (upsert m k v) a = lookupKV m a := by
  induction m with
  | nil => simp [upsert, lookupKV, h]
  | cons p rest ih =>
    obtain ⟨b, w⟩ := p
    by_cases hb : b = k
    · subst hb
      simp [upsert, lookupKV, h]
    · simp [upsert, lookupKV, hb, ih]

theorem keys_upsert (m : List (String × List String)) (k : String) (v : List String) :
    (upsert m k v).map (·.1) =
      if k ∈ m.map (·.1) then m.map (·.1) else m.map (·.1) ++ [k] := by
  induction m with
  | nil => simp [upsert]
  | cons p rest ih =>
    obtain ⟨a, w⟩ := p
    by_cases h : a = k
    · subst h
      simp [upsert]
    · have hne : k = a ↔ False := by simp [Ne.symm h]
      by_cases hk : k ∈ rest.map (·.1)
      · simp [upsert, h, ih, hk, hne]
      · simp [upsert, h, ih, hk, hne]

theorem lookupKV_foldl_upsert (df : List CategoryRow) :
    ∀ (m : List (String × List String)) (c : String),
      lookupKV (df.foldl (fun m r => upsert m r.name r.aspects_parsed) m) c =
        match df.reverse.find? (fun r => decide (r.name = c)) with
        | some r => some r.aspects_parsed
        | none => lookupKV m c := by
  induction df with
  | nil => simp
  | cons r rest ih =>
    intro m c
    rw [List.foldl_cons, ih, List.reverse_cons, List.find?_append]
    cases hfind : rest.reverse.find? (fun r => decide (r.name = c)) with
    | some r' => simp [hfind]
    | none =>
      by_cases hc : r.name = c
      · simp [hfind, hc, lookupKV_upsert_self]
      · simp [hfind, hc, lookupKV_upsert_other _ _ _ _ hc]

theorem keys_foldl_upsert (df : List CategoryRow) :
    ∀ (m : List (String × List String)),
      (df.foldl (fun m r => upsert m r.name r.aspects_parsed) m).map (·.1) =
        df.foldl (fun acc r => if r.name ∈ acc then acc else acc ++ [r.name]) (m.map (·.1)) := by
  induction df with
  | nil => simp
  | cons r rest ih =>
    intro m
    rw [List.foldl_cons, ih, keys_upsert, List.foldl_cons]

theorem mem_of_nodup_keys_lookupKV {m : List (String × β)} {c : String} {v : β}
    (hnd : (m.map (·.1)).Nodup) (hm : (c, v) ∈ m) : lookupKV m c = some v := by
  induction m with
  | nil => simp at hm
  | cons p rest ih =>
    obtain ⟨a, w⟩ := p
    rcases List.mem_cons.mp hm with h | h
    · obtain ⟨h1, h2⟩ := Prod.mk.injEq .. ▸ h
      injection h with h'
      rw [lookupKV]
      simp_all
    · have hnd' : (rest.map (·.1)).Nodup := (List.nodup_cons.mp hnd).2
      have hane : a ≠ c := by
        intro hac
        subst hac
        exact (List.nodup_cons.mp hnd).1 (List.mem_map.mpr ⟨(a, v), h, rfl⟩)
      rw [lookupKV, if_neg hane]
      exact ih hnd' h

theorem mem_zip_map {f : α → β} : ∀ {l : List α} {x : α} {y : β},
    (x, y) ∈ l.zip (l.map f) → y = f x := by
  intro l
  induction l with
  | nil =>
    intro x y h
    simp at h
  | cons a as ih =>
    intro x y h
    rw [List.map_cons, List.zip_cons_cons] at h
    rcases List.mem_cons.mp h with h | h
    · rw [Prod.mk.injEq] at h
      rw [h.2, h.1]
    · exact ih h

/-- C6: `analyze_aspects` on an empty review table (zero rows) returns the
code's empty-result sentinel `(None, None)` — zero `AspectStat` rows and no
pivot — modelled as `none`; the function is total, so no exception and in
particular no `EmptyInputError` is raised. -/
theorem analyze_aspects_empty_input_empty_result : analyze_aspects [] = none := rfl

/-- C7: presenting the review pipeline a table whose `category` or
`aspects` column is absent makes `process_csv` fail with the
missing-columns schema error instead of returning a processed table. -/
theorem process_csv_missing_required_column (t : RawReviewTable)
    (h : ¬ "category" ∈ t.header ∨ ¬ "aspects" ∈ t.header) :
    ∃ msg, process_csv t = Except.error msg := by
  have hm : missingColumns t ≠ [] := by
    rcases h with h | h
    · have hmem : "category" ∈ missingColumns t := by
        rw [missingColumns, List.mem_filter]
        exact ⟨by simp [required_columns], by simpa using h⟩
      exact List.ne_nil_of_mem hmem
    · have hmem : "aspects" ∈ missingColumns t := by
        rw [missingColumns, List.mem_filter]
        exact ⟨by simp [required_columns], by simpa using h⟩
      exact List.ne_nil_of_mem hmem
  refine ⟨"Error: The following required columns are missing: " ++
    joinComma (missingColumns t), ?_⟩
  rw [process_csv, if_pos hm]

/-- C7 witness: a table lacking the `category` column is rejected. -/
theorem process_csv_missing_required_column_witness :
    ∃ msg, process_csv ⟨["review_id", "review_text", "aspects"], [], true⟩ =
      Except.error msg :=
  process_csv_missing_required_column _ (Or.inl (by decide))

/-- C10: whenever `process_csv` accepts a table, each review's derived
`aspects_list` is exactly the raw `aspects` string split on every comma
with surrounding whitespace stripped from each token; empty or
whitespace-only tokens survive as empty strings (the split keeps them),
so they flow into the aggregation. -/
theorem aspects_list_is_split_and_strip (t : RawReviewTable) (df : List Review)
    (h : process_csv t = Except.ok df) :
    df.length = t.rows.length ∧
    ∀ r rev, (r, rev) ∈ t.rows.zip df → ∀ s, r.aspects = some s →
      rev.aspects_list = (pySplit ',' s).map pyStrip := by
  by_cases hm : missingColumns t = []
  · by_cases ho : t.aspectsIsObject = true
    · rw [process_csv, if_neg (by simp [hm]), if_pos ho] at h
      have hdf : t.rows.map (fun r =>
          { category := r.category
            aspects_list :=
              match r.aspects with
              | some s => (pySplit ',' s).map pyStrip
              | none => ([] : List String) } : RawReviewRow → Review) = df := by
        injection h
      subst hdf
      refine ⟨List.length_map _ _, ?_⟩
      intro r rev hmem s hs
      have hrev := mem_zip_map hmem
      rw [hrev, hs]
    · rw [process_csv, if_neg (by simp [hm]), if_neg ho] at h
      exact Except.noConfusion h
  · rw [process_csv, if_pos hm] at h
    exact Except.noConfusion h

/-- C10 witness: the cell `"a,, b "` yields the tokens `a`, the empty
string, and `b`. -/
theorem aspects_list_is_split_and_strip_witness :
    procDf10.length = rawT10.rows.length ∧
    (⟨"C", ["a", "", "b"]⟩ : Review).aspects_list =
      (pySplit ',' "a,, b ").map pyStrip :=
  ⟨(aspects_list_is_split_and_strip rawT10 procDf10 (by rfl)).1,
   (aspects_list_is_split_and_strip rawT10 procDf10 (by rfl)).2
     ⟨"C", some "a,, b "⟩ ⟨"C", ["a", "", "b"]⟩ (by decide) "a,, b " rfl⟩

/-- C4 counterexample: the aspects value `"x"` fails both the JSON parse
and the literal-list parse, and the normalization step of
`upload_categories_csv` then propagates the error instead of substituting
an empty list as the claim asserts. -/
theorem upload_normalize_no_empty_fallback :
    upload_categories_normalize [some "x"] = Except.error () ∧
    upload_categories_normalize [some "x"] ≠ Except.ok [[]] := by
  refine ⟨by rfl, ?_⟩
  intro h
  rw [show upload_categories_normalize [some "x"] = Except.error () from by rfl] at h
  exact Except.noConfusion h

/-- C4 amended: the normalization tries `json.loads` on the whole column
first and falls back to `ast.literal_eval` on the whole column; it fails
(propagating a parse error out of the normalization step, with no
empty-list substitution) exactly when some cell defeats the JSON parse and
some cell defeats the literal parse; any accepted column got each value
from one of the two parsers (blank and non-string cells become `[]`). -/
theorem upload_normalize_fallback_chain (col : List (Option String)) :
    ((∃ e, upload_categories_normalize col = Except.error e) ↔
      ((∃ c ∈ col, parseCell jsonLoadsList c = none) ∧
       (∃ c ∈ col, parseCell literalEvalList c = none)))
  ∧ (∀ ls, upload_categories_normalize col = Except.ok ls →
      ∀ p ∈ col.zip ls,
        parseCell jsonLoadsList p.1 = some p.2 ∨ parseCell literalEvalList p.1 = some p.2) := by
  constructor
  · cases hj : applyCol (parseCell jsonLoadsList) col with
    | some r =>
      rw [upload_categories_normalize, hj]
      constructor
      · rintro ⟨e, he⟩
        exact Except.noConfusion he
      · rintro ⟨⟨c, hc, hcn⟩, _⟩
        have : applyCol (parseCell jsonLoadsList) col = none :=
          applyCol_eq_none.mpr ⟨c, hc, hcn⟩
        rw [hj] at this
        exact Option.noConfusion this
    | none =>
      cases hl : applyCol (parseCell literalEvalList) col with
      | some r =>
        rw [upload_categories_normalize, hj, hl]
        constructor
        · rintro ⟨e, he⟩
          exact Except.noConfusion he
        · rintro ⟨_, ⟨c, hc, hcn⟩⟩
          have : applyCol (parseCell literalEvalList) col = none :=
            applyCol_eq_none.mpr ⟨c, hc, hcn⟩
          rw [hl] at this
          exact Option.noConfusion this
      | none =>
        rw [upload_categories_normalize, hj, hl]
        exact ⟨fun _ => ⟨applyCol_eq_none.mp hj, applyCol_eq_none.mp hl⟩, fun _ => ⟨(), rfl⟩⟩
  · intro ls hok p hp
    cases hj : applyCol (parseCell jsonLoadsList) col with
    | some r =>
      rw [upload_categories_normalize, hj] at hok
      have hr : r = ls := by injection hok
      subst hr
      exact Or.inl (applyCol_zip hj p hp)
    | none =>
      cases hl : applyCol (parseCell literalEvalList) col with
      | some r =>
        rw [upload_categories_normalize, hj, hl] at hok
        have hr : r = ls := by injection hok
        subst hr
        exact Or.inr (applyCol_zip hl p hp)
      | none =>
        rw [upload_categories_normalize, hj, hl] at hok
        exact Except.noConfusion hok

/-- C4 witness: a column with one JSON-array cell and one NaN cell is
accepted, the first cell coming from one of the two parsers. -/
theorem upload_normalize_fallback_chain_witness :
    parseCell jsonLoadsList (some "[\"a\"]") = some ["a"] ∨
    parseCell literalEvalList (some "[\"a\"]") = some ["a"] :=
  (upload_normalize_fallback_chain [some "[\"a\"]", none]).2 [["a"], []] (by rfl)
    (some "[\"a\"]", ["a"]) (by decide)

/-- C8: `categories_no_aspects` is exactly the rows whose supplied
`aspectsCount` field equals 0 (the trusted count column, not a recount of
the parsed list), and a row with an empty parsed aspects list contributes
nothing to the aspect counter or to the sorted `aspect_freq` table. -/
theorem categories_no_aspects_uses_count_field (df : List CategoryRow) (r : CategoryRow) :
    (r ∈ (analyze_category_aspects df).categories_no_aspects ↔
       r ∈ df ∧ r.aspectsCount = 0)
  ∧ (r.aspects_parsed = [] → ∀ pre post,
      (analyze_category_aspects (pre ++ r :: post)).aspect_counts =
        (analyze_category_aspects (pre ++ post)).aspect_counts ∧
      (analyze_category_aspects (pre ++ r :: post)).aspect_freq =
        (analyze_category_aspects (pre ++ post)).aspect_freq) := by
  constructor
  · have hfield : (analyze_category_aspects df).categories_no_aspects =
        df.filter (fun r => decide (r.aspectsCount = 0)) := rfl
    rw [hfield, List.mem_filter]
    simp
  · intro hr pre post
    have hcounts : (analyze_category_aspects (pre ++ r :: post)).aspect_counts =
        (analyze_category_aspects (pre ++ post)).aspect_counts := by
      have h1 : (analyze_category_aspects (pre ++ r :: post)).aspect_counts =
          (pre ++ r :: post).foldl (fun m rr => rr.aspects_parsed.foldl bump m) [] := rfl
      have h2 : (analyze_category_aspects (pre ++ post)).aspect_counts =
          (pre ++ post).foldl (fun m rr => rr.aspects_parsed.foldl bump m) [] := rfl
      rw [h1, h2, List.foldl_append, List.foldl_append, List.foldl_cons, hr, List.foldl_nil]
    refine ⟨hcounts, ?_⟩
    have h3 : (analyze_category_aspects (pre ++ r :: post)).aspect_freq =
        sSort countDesc ((analyze_category_aspects (pre ++ r :: post)).aspect_counts) := rfl
    have h4 : (analyze_category_aspects (pre ++ post)).aspect_freq =
        sSort countDesc ((analyze_category_aspects (pre ++ post)).aspect_counts) := rfl
    rw [h3, h4, hcounts]

/-- C8 witness: a row with `aspectsCount = 0` and no parsed aspects is
listed among the aspect-less categories and leaves `aspect_freq` alone. -/
theorem categories_no_aspects_uses_count_field_witness :
    ((⟨"Empty", 0, []⟩ : CategoryRow) ∈
       (analyze_category_aspects [⟨"Empty", 0, []⟩]).categories_no_aspects)
  ∧ (analyze_category_aspects ([] ++ ⟨"Empty", 0, []⟩ :: [⟨"A", 1, ["x"]⟩])).aspect_freq =
      (analyze_category_aspects ([] ++ [⟨"A", 1, ["x"]⟩])).aspect_freq :=
  ⟨(categories_no_aspects_uses_count_field [⟨"Empty", 0, []⟩] ⟨"Empty", 0, []⟩).1.mpr
     ⟨by decide, rfl⟩,
   ((categories_no_aspects_uses_count_field [⟨"A", 1, ["x"]⟩] ⟨"Empty", 0, []⟩).2 rfl
     [] [⟨"A", 1, ["x"]⟩]).2⟩

theorem foldl_bump_flat (df : List CategoryRow) :
    ∀ (m : List (String × Nat)),
      df.foldl (fun m r => r.aspects_parsed.foldl bump m) m =
        (df.flatMap (·.aspects_parsed)).foldl bump m := by
  induction df with
  | nil => simp
  | cons r rest ih =>
    intro m
    rw [List.foldl_cons, ih, List.flatMap_cons, List.foldl_append]

/-- C3 counterexample: a single category row whose parsed aspects sequence
repeats `x` makes the counter reach 2, though only 1 distinct category
contains `x` — so a category row can contribute more than 1 per aspect. -/
theorem aspect_freq_counts_occurrences_not_categories :
    lookupKV (analyze_category_aspects dupAspectDf).aspect_counts "x" = some 2
  ∧ (analyze_category_aspects dupAspectDf).aspect_freq = [("x", 2)]
  ∧ categoriesContaining dupAspectDf "x" = 1
  ∧ (2 : Nat) ≠ 1 :=
  ⟨by rfl, by rfl, by rfl, by decide⟩

/-- C3 amended: each aspect's count is the number of occurrences of the
aspect across all rows' parsed aspects sequences (a row listing an aspect
twice contributes twice); `aspect_freq` is sorted descending by count,
rows of equal count stay in dict order, and the dict keys are in
first-seen order of the aspect. -/
theorem aspect_freq_occurrence_counts_sorted (df : List CategoryRow) (a : String) (n m : Nat) :
    (lookupKV (analyze_category_aspects df).aspect_counts a = some n ↔
      ((df.flatMap (·.aspects_parsed)).count a = n ∧ 0 < n))
  ∧ (analyze_category_aspects df).aspect_freq.Pairwise (fun x y => y.2 ≤ x.2)
  ∧ (analyze_category_aspects df).aspect_freq.filter (fun e => decide (e.2 = m)) =
      (analyze_category_aspects df).aspect_counts.filter (fun e => decide (e.2 = m))
  ∧ (analyze_category_aspects df).aspect_counts.map (·.1) =
      firstSeenDistinct (df.flatMap (·.aspects_parsed)) := by
  have hc : (analyze_category_aspects df).aspect_counts =
      (df.flatMap (·.aspects_parsed)).foldl bump [] := by
    have h0 : (analyze_category_aspects df).aspect_counts =
        df.foldl (fun m r => r.aspects_parsed.foldl bump m) [] := rfl
    rw [h0, foldl_bump_flat]
  have hf : (analyze_category_aspects df).aspect_freq =
      sSort countDesc ((analyze_category_aspects df).aspect_counts) := rfl
  refine ⟨?_, ?_, ?_, ?_⟩
  · rw [hc]
    constructor
    · intro h
      have hg := getD_lookupKV_foldl_bump (df.flatMap (·.aspects_parsed)) [] a
      rw [h] at hg
      have hn : n = (df.flatMap (·.aspects_parsed)).count a := by simpa [lookupKV] using hg
      refine ⟨hn.symm, ?_⟩
      rcases Nat.eq_zero_or_pos n with h0 | h0
      · exfalso
        have : lookupKV ((df.flatMap (·.aspects_parsed)).foldl bump []) a = none :=
          (lookupKV_foldl_bump_eq_none _ _ _).mpr ⟨rfl, by rw [← hn, h0]⟩
        rw [h] at this
        exact Option.noConfusion this
      · exact h0
    · rintro ⟨hcnt, hpos⟩
      cases hlk : lookupKV ((df.flatMap (·.aspects_parsed)).foldl bump []) a with
      | none =>
        have := ((lookupKV_foldl_bump_eq_none _ _ _).mp hlk).2
        omega
      | some v =>
        have hg := getD_lookupKV_foldl_bump (df.flatMap (·.aspects_parsed)) [] a
        rw [hlk] at hg
        have : v = n := by
          rw [hcnt] at hg
          simpa [lookupKV] using hg
        rw [this]
  · rw [hf]
    refine pairwise_sSort ?_ ?_ ?_ _
    · intro x y z hxy hyz
      exact le_trans hyz hxy
    · intro x y h
      have : ¬ y.2 < x.2 := by simpa [countDesc] using h
      omega
    · intro x y h
      have : y.2 < x.2 := by simpa [countDesc] using h
      omega
  · rw [hf]
    refine filter_sSort ?_ _
    intro x y hx hy
    have hxm : x.2 = m := by simpa using hx
    have hym : y.2 = m := by simpa using hy
    simp [countDesc, hxm, hym]
  · rw [hc, keys_foldl_bump]
    rfl

theorem charInj (a b : Char) (h : a.toNat = b.toNat) : a = b := by
  have h1 : Char.ofNat a.toNat = Char.ofNat b.toNat := by rw [h]
  rwa [Char.ofNat_toNat, Char.ofNat_toNat] at h1

theorem cmpChars_eq_iff : ∀ l1 l2, cmpChars l1 l2 = Ordering.eq ↔ l1 = l2 := by
  intro l1
  induction l1 with
  | nil =>
    intro l2
    cases l2 with
    | nil => simp [cmpChars]
    | cons b bs => simp [cmpChars]
  | cons a as ih =>
    intro l2
    cases l2 with
    | nil => simp [cmpChars]
    | cons b bs =>
      by_cases h1 : a.toNat < b.toNat
      · have : a ≠ b := fun he => by rw [he] at h1; omega
        simp [cmpChars, h1, this]
      · by_cases h2 : b.toNat < a.toNat
        · have : a ≠ b := fun he => by rw [he] at h2; omega
          simp [cmpChars, h1, h2, this]
        · have hab : a = b := charInj a b (by omega)
          subst hab
          simp [cmpChars, h1, h2, ih]

theorem cmpChars_lt_iff_gt :
    ∀ l1 l2, cmpChars l1 l2 = Ordering.lt ↔ cmpChars l2 l1 = Ordering.gt := by
  intro l1
  induction l1 with
  | nil =>
    intro l2
    cases l2 with
    | nil => simp [cmpChars]
    | cons b bs => simp [cmpChars]
  | cons a as ih =>
    intro l2
    cases l2 with
    | nil => simp [cmpChars]
    | cons b bs =>
      by_cases h1 : a.toNat < b.toNat
      · have h2 : ¬ b.toNat < a.toNat := by omega
        simp [cmpChars, h1, h2]
      · by_cases h2 : b.toNat < a.toNat
        · simp [cmpChars, h1, h2]
        · simp [cmpChars, h1, h2, ih]

theorem cmpChars_lt_trans : ∀ l1 l2 l3, cmpChars l1 l2 = Ordering.lt →
    cmpChars l2 l3 = Ordering.lt → cmpChars l1 l3 = Ordering.lt := by
  intro l1
  induction l1 with
  | nil =>
    intro l2 l3 h12 h23
    cases l2 with
    | nil => simp [cmpChars] at h12
    | cons b bs =>
      cases l3 with
      | nil => simp [cmpChars] at h23
      | cons c cs => simp [cmpChars]
  | cons a as ih =>
    intro l2 l3 h12 h23
    cases l2 with
    | nil => simp [cmpChars] at h12
    | cons b bs =>
      cases l3 with
      | nil => simp [cmpChars] at h23
      | cons c cs =>
        by_cases hab : a.toNat < b.toNat <;> by_cases hba : b.toNat < a.toNat <;>
          by_cases hbc : b.toNat < c.toNat <;> by_cases hcb : c.toNat < b.toNat <;>
            simp_all [cmpChars] <;> first
              | omega
              | (intro h; exact ⟨by omega, ih bs cs h12 h23⟩)

theorem stringDataInj {a b : String} (h : a.data = b.data) : a = b := by
  cases a
  cases b
  exact congrArg String.mk h

theorem pyStrLt_asymm {a b : String} (h : pyStrLt a b = true) : pyStrLt b a = false := by
  have hlt : cmpChars a.data b.data = Ordering.lt := by simpa [pyStrLt] using h
  have hgt : cmpChars b.data a.data = Ordering.gt := (cmpChars_lt_iff_gt _ _).mp hlt
  simp [pyStrLt, hgt]

theorem pyStrLt_ge_trans {a b c : String} (h1 : pyStrLt b a = false)
    (h2 : pyStrLt c b = false) : pyStrLt c a = false := by
  have h1x : ¬ cmpChars b.data a.data = Ordering.lt := by simpa [pyStrLt] using h1
  have h2x : ¬ cmpChars c.data b.data = Ordering.lt := by simpa [pyStrLt] using h2
  rw [pyStrLt, decide_eq_false_iff_not]
  intro hca
  cases hcb : cmpChars c.data b.data with
  | lt => exact h2x hcb
  | eq =>
    have heq : c.data = b.data := (cmpChars_eq_iff _ _).mp hcb
    rw [heq] at hca
    exact h1x hca
  | gt =>
    have hbc : cmpChars b.data c.data = Ordering.lt := (cmpChars_lt_iff_gt _ _).mpr hcb
    exact h1x (cmpChars_lt_trans _ _ _ hbc hca)

theorem pyStrLt_total_strict {a b : String} (hne : a ≠ b) (h : pyStrLt b a = false) :
    pyStrLt a b = true := by
  have hx : ¬ cmpChars b.data a.data = Ordering.lt := by simpa [pyStrLt] using h
  rw [pyStrLt, decide_eq_true_iff]
  cases hab : cmpChars a.data b.data with
  | lt => rfl
  | eq => exact absurd (stringDataInj ((cmpChars_eq_iff _ _).mp hab)) hne
  | gt => exact absurd ((cmpChars_lt_iff_gt _ _).mpr hab) hx

theorem pairwise_lt_sSort_strAsc (l : List String) (hnd : l.Nodup) :
    (sSort strAsc l).Pairwise (fun a b => pyStrLt a b = true) := by
  have hP : (sSort strAsc l).Pairwise (fun a b => pyStrLt b a = false) := by
    refine pairwise_sSort ?_ ?_ ?_ l
    · intro x y z h1 h2
      exact pyStrLt_ge_trans h1 h2
    · intro x y h
      exact h
    · intro x y h
      exact pyStrLt_asymm h
  have hnd' : (sSort strAsc l).Nodup := ((sSort_perm strAsc l).nodup_iff).mpr hnd
  exact (hP.and hnd').imp (fun h => pyStrLt_total_strict h.2 h.1)

/-- C5: the aspect × category matrix has one row per aspect occurring in
any row's parsed aspects (aspect names strictly ascending, hence no
duplicate rows), one cell per first-seen category name in every row, and
each cell is 1 exactly when the row's aspect belongs to the aspects of the
*last* input row carrying that category name — a later row with a
duplicate name silently overwrites the earlier one's membership. -/
theorem aspect_category_matrix_spec (df : List CategoryRow) :
    ((create_aspect_category_matrix df).map (·.aspect)).Pairwise
      (fun a b => pyStrLt a b = true)
  ∧ (∀ a, (a ∈ (create_aspect_category_matrix df).map (·.aspect)) ↔
      ∃ r ∈ df, a ∈ r.aspects_parsed)
  ∧ (∀ row ∈ create_aspect_category_matrix df,
      row.cells.map (·.1) = firstSeenDistinct (df.map (·.name)))
  ∧ (∀ row ∈ create_aspect_category_matrix df, ∀ p ∈ row.cells,
      p.2 = if row.aspect ∈ lastAspectsOf df p.1 then 1 else 0) := by
  have hM : create_aspect_category_matrix df =
      (sSort strAsc (firstSeenDistinct (df.flatMap (·.aspects_parsed)))).map (fun a =>
        { aspect := a
          cells := (df.foldl (fun m r => upsert m r.name r.aspects_parsed) []).map
            (fun p => (p.1, if a ∈ p.2 then 1 else 0)) }) := rfl
  have hasp : (create_aspect_category_matrix df).map (·.aspect) =
      sSort strAsc (firstSeenDistinct (df.flatMap (·.aspects_parsed))) := by
    rw [hM, List.map_map]
    exact List.map_id _
  have hkeys : (df.foldl (fun m r => upsert m r.name r.aspects_parsed) []).map (·.1) =
      firstSeenDistinct (df.map (·.name)) := by
    rw [keys_foldl_upsert, firstSeenDistinct, List.foldl_map]
    rfl
  refine ⟨?_, ?_, ?_, ?_⟩
  · rw [hasp]
    exact pairwise_lt_sSort_strAsc _ (nodup_firstSeenDistinct _)
  · intro a
    rw [hasp, mem_sSort, mem_firstSeenDistinct, List.mem_flatMap]
  · intro row hrow
    rw [hM] at hrow
    rcases List.mem_map.mp hrow with ⟨a, _, rfl⟩
    rw [List.map_map]
    exact hkeys
  · intro row hrow p hp
    rw [hM] at hrow
    rcases List.mem_map.mp hrow with ⟨a, _, rfl⟩
    rcases List.mem_map.mp hp with ⟨q, hq, rfl⟩
    have hlk : lookupKV (df.foldl (fun m r => upsert m r.name r.aspects_parsed) []) q.1 =
        some q.2 := by
      refine mem_of_nodup_keys_lookupKV ?_ ?_
      · rw [hkeys]
        exact nodup_firstSeenDistinct _
      · exact (Prod.mk.eta ▸ hq)
    rw [lookupKV_foldl_upsert] at hlk
    cases hfind : df.reverse.find? (fun r => decide (r.name = q.1)) with
    | none =>
      rw [hfind] at hlk
      exact Option.noConfusion hlk
    | some r =>
      rw [hfind] at hlk
      have hv : q.2 = r.aspects_parsed := by
        injection hlk with h
        exact h.symm
      have hlast : lastAspectsOf df q.1 = r.aspects_parsed := by
        rw [lastAspectsOf, hfind]
        rfl
      rw [hlast, ← hv]

/-- C5 witness: with two rows both named `A`, the matrix keeps a row for
the overwritten aspect `x` but its `A` cell is 0, while `y` (from the
later row) gets 1. -/
theorem aspect_category_matrix_spec_witness :
    ((⟨"x", [("A", 0)]⟩ : MatrixRow) ∈ create_aspect_category_matrix dupNameDf)
  ∧ (("A", 0) : String × Nat).2 = (if "x" ∈ lastAspectsOf dupNameDf "A" then 1 else 0)
  ∧ (("A", 1) : String × Nat).2 = (if "y" ∈ lastAspectsOf dupNameDf "A" then 1 else 0) :=
  ⟨by decide,
   (aspect_category_matrix_spec dupNameDf).2.2.2 ⟨"x", [("A", 0)]⟩ (by decide) ("A", 0) (by decide),
   (aspect_category_matrix_spec dupNameDf).2.2.2 ⟨"y", [("A", 1)]⟩ (by decide) ("A", 1) (by decide)⟩

/-- C9 counterexample: in `tiedStats` the aspect `b` is seen first, yet
`get_top_aspects` returns the tied aspects in alphabetical order `a, b`
(the groupby step sorts keys), not in first-seen order `b, a`. -/
theorem top_aspects_ties_not_first_seen :
    get_top_aspects tiedStats 2 = some [("a", 1), ("b", 1)]
  ∧ firstSeenDistinct (tiedStats.map (·.aspect)) = ["b", "a"]
  ∧ some [("a", 1), ("b", 1)] ≠ some [("b", 1), ("a", 1)] :=
  ⟨by rfl, by rfl, by decide⟩

/-- C9 amended: `get_top_aspects` groups by aspect summing counts across
categories, returns at most `n` rows sorted descending by total count with
ties in ascending alphabetical aspect order (pandas `groupby` sorts the
aspect keys), and — when every input count is at least 1 — never returns
an aspect with zero total. -/
theorem top_aspects_spec (analysis : List AspectStat) (n : Nat) (l : List (String × Nat)) (m : Nat)
    (hc : ∀ r ∈ analysis, 1 ≤ r.count)
    (h : get_top_aspects analysis n = some l) :
    l.length ≤ n
  ∧ l.Pairwise (fun x y => y.2 ≤ x.2)
  ∧ (l.filter (fun e => decide (e.2 = m))).Pairwise (fun x y => pyStrLt x.1 y.1 = true)
  ∧ ∀ e ∈ l, (e.2 = ((analysis.filter (fun r => decide (r.aspect = e.1))).map (·.count)).sum
      ∧ e.1 ∈ analysis.map (·.aspect) ∧ 1 ≤ e.2) := by
  by_cases hne : analysis.length = 0
  · rw [get_top_aspects, if_pos hne] at h
    exact Option.noConfusion h
  rw [get_top_aspects, if_neg hne] at h
  have hl : (sSort countDesc (aspectTotals analysis)).take n = l := by
    injection h
  subst hl
  have hsorted : (sSort countDesc (aspectTotals analysis)).Pairwise
      (fun x y : String × Nat => y.2 ≤ x.2) := by
    refine pairwise_sSort ?_ ?_ ?_ _
    · intro x y z hxy hyz
      exact le_trans hyz hxy
    · intro x y hxy
      have : ¬ y.2 < x.2 := by simpa [countDesc] using hxy
      omega
    · intro x y hxy
      have : y.2 < x.2 := by simpa [countDesc] using hxy
      omega
  refine ⟨?_, ?_, ?_, ?_⟩
  · rw [List.length_take]
    exact min_le_left _ _
  · exact hsorted.sublist (List.take_sublist _ _)
  · have hkeys : (sSort strAsc (firstSeenDistinct (analysis.map (·.aspect)))).Pairwise
        (fun a b => pyStrLt a b = true) :=
      pairwise_lt_sSort_strAsc _ (nodup_firstSeenDistinct _)
    have htot : (aspectTotals analysis).Pairwise
        (fun x y : String × Nat => pyStrLt x.1 y.1 = true) := by
      rw [aspectTotals]
      exact (List.pairwise_map).mpr hkeys
    have hstab : (sSort countDesc (aspectTotals analysis)).filter (fun e => decide (e.2 = m)) =
        (aspectTotals analysis).filter (fun e => decide (e.2 = m)) := by
      refine filter_sSort ?_ _
      intro x y hx hy
      have hxm : x.2 = m := by simpa using hx
      have hym : y.2 = m := by simpa using hy
      simp [countDesc, hxm, hym]
    have hsub : List.Sublist
        (((sSort countDesc (aspectTotals analysis)).take n).filter (fun e => decide (e.2 = m)))
        ((sSort countDesc (aspectTotals analysis)).filter (fun e => decide (e.2 = m))) :=
      (List.take_sublist _ _).filter _
    rw [hstab] at hsub
    exact (htot.filter _).sublist hsub
  · intro e he
    have he1 : e ∈ sSort countDesc (aspectTotals analysis) := List.take_subset _ _ he
    have he2 : e ∈ aspectTotals analysis := mem_sSort.mp he1
    rw [aspectTotals] at he2
    rcases List.mem_map.mp he2 with ⟨a, ha, rfl⟩
    have ha2 : a ∈ analysis.map (·.aspect) :=
      (mem_firstSeenDistinct _ _).mp (mem_sSort.mp ha)
    refine ⟨rfl, ha2, ?_⟩
    rcases List.mem_map.mp ha2 with ⟨r, hr, hra⟩
    have hrf : r ∈ analysis.filter (fun r => decide (r.aspect = a)) :=
      List.mem_filter.mpr ⟨hr, by simp [hra]⟩
    have hcm : r.count ∈ (analysis.filter (fun r => decide (r.aspect = a))).map (·.count) :=
      List.mem_map_of_mem _ hrf
    have hle : r.count ≤ ((analysis.filter (fun r => decide (r.aspect = a))).map (·.count)).sum :=
      List.single_le_sum (fun x _ => Nat.zero_le x) _ hcm
    exact le_trans (hc r hr) hle

/-- C9 witness: the amended behavior at `tiedStats` with `n = 2`. -/
theorem top_aspects_spec_witness :
    ([("a", 1), ("b", 1)] : List (String × Nat)).length ≤ 2
  ∧ ([("a", 1), ("b", 1)] : List (String × Nat)).Pairwise (fun x y => y.2 ≤ x.2)
  ∧ (([("a", 1), ("b", 1)] : List (String × Nat)).filter
      (fun e => decide (e.2 = 1))).Pairwise (fun x y => pyStrLt x.1 y.1 = true)
  ∧ ∀ e ∈ ([("a", 1), ("b", 1)] : List (String × Nat)),
      (e.2 = ((tiedStats.filter (fun r => decide (r.aspect = e.1))).map (·.count)).sum
        ∧ e.1 ∈ tiedStats.map (·.aspect) ∧ 1 ≤ e.2) :=
  top_aspects_spec tiedStats 2 [("a", 1), ("b", 1)] 1 (by decide) (by rfl)

theorem analyze_aspects_some {df : List Review} {stats : List AspectStat} {piv : List PivotRow}
    (h : analyze_aspects df = some (stats, piv)) :
    stats = analysisRows df ∧ piv = pivot_table (analysisRows df) := by
  rw [analyze_aspects] at h
  by_cases h0 : df.length = 0
  · rw [if_pos h0] at h
    exact Option.noConfusion h
  · rw [if_neg h0] at h
    by_cases h1 : analysisRows df = []
    · rw [if_pos h1] at h
      exact Option.noConfusion h
    · rw [if_neg h1] at h
      have h2 : (analysisRows df, pivot_table (analysisRows df)) = (stats, piv) := by
        injection h
      exact ⟨(congrArg Prod.fst h2).symm, (congrArg Prod.snd h2).symm⟩

theorem countAspects_flat (rows : List Review) :
    countAspects rows = (rows.flatMap (·.aspects_list)).foldl bump [] := by
  rw [countAspects]
  generalize ([] : List (String × Nat)) = m
  induction rows generalizing m with
  | nil => simp
  | cons r rest ih =>
    rw [List.foldl_cons, ih, List.flatMap_cons, List.foldl_append]

theorem sum_counts_countAspects (rows : List Review) :
    ((countAspects rows).map (·.2)).sum = (rows.map (·.aspects_list.length)).sum := by
  rw [countAspects_flat, sum_snd_foldl_bump]
  simp only [List.length_flatMap, List.map_nil, List.sum_nil, Nat.zero_add]
  rfl

theorem statBlock_category {df : List Review} {cat : String} {r : AspectStat}
    (hr : r ∈ statBlock df cat) : r.category = cat := by
  rw [statBlock] at hr
  rcases List.mem_map.mp hr with ⟨p, _, rfl⟩
  rfl

theorem filter_flatMap_statBlock (df : List Review) (cat : String) :
    ∀ (cats : List String), cats.Nodup →
      ((cats.flatMap (statBlock df)).filter (fun r => decide (r.category = cat))) =
        if cat ∈ cats then statBlock df cat else [] := by
  intro cats
  induction cats with
  | nil => simp
  | cons c rest ih =>
    intro hnd
    rcases List.nodup_cons.mp hnd with ⟨hc, hrest⟩
    rw [List.flatMap_cons, List.filter_append, ih hrest]
    by_cases hcc : c = cat
    · subst hcc
      have h1 : (statBlock df c).filter (fun r => decide (r.category = c)) = statBlock df c := by
        rw [List.filter_eq_self]
        intro a ha
        simp [statBlock_category ha]
      rw [h1, if_neg hc, if_pos (List.mem_cons_self c rest)]
      simp
    · have h1 : (statBlock df c).filter (fun r => decide (r.category = cat)) = [] := by
        rw [List.filter_eq_nil_iff]
        intro a ha
        simp [statBlock_category ha, hcc]
      rw [h1]
      by_cases hmem : cat ∈ rest
      · rw [if_pos hmem, if_pos (List.mem_cons_of_mem c hmem)]
        simp
      · rw [if_neg hmem, if_neg (by
          intro hx
          rcases List.mem_cons.mp hx with hx | hx
          · exact hcc hx.symm
          · exact hmem hx)]
        simp

/-- C1: every stat row emitted by `analyze_aspects` satisfies
`percentage = 100 * count / total_reviews` (for its own category's review
total), `is_low_percentage` holds iff `percentage < 5.0` strictly, and a
row at exactly 5.0% is not flagged low. -/
theorem aspect_stat_percentage_and_low_flag (df : List Review) (stats : List AspectStat)
    (piv : List PivotRow) (r : AspectStat)
    (h : analyze_aspects df = some (stats, piv)) (hr : r ∈ stats) :
    r.percentage = 100 * (r.count : ℚ) / (r.total_reviews : ℚ)
  ∧ (r.is_low_percentage = true ↔ r.percentage < 5)
  ∧ (r.percentage = 5 → r.is_low_percentage = false) := by
  obtain ⟨hs, -⟩ := analyze_aspects_some h
  subst hs
  rw [analysisRows] at hr
  rcases List.mem_flatMap.mp hr with ⟨cat, _, hrb⟩
  rw [statBlock] at hrb
  rcases List.mem_map.mp hrb with ⟨p, _, rfl⟩
  dsimp only
  refine ⟨by ring, decide_eq_true_iff, ?_⟩
  intro h5
  rw [decide_eq_false_iff_not]
  intro hlt
  rw [h5] at hlt
  exact lt_irrefl 5 hlt

/-- C1 witness: with one aspect tag among twenty reviews the percentage is
exactly 5.0 and the low flag is false. -/
theorem aspect_stat_percentage_and_low_flag_witness :
    stat20.percentage = 5 ∧ stat20.is_low_percentage = false
  ∧ (stat20.percentage = 100 * (stat20.count : ℚ) / (stat20.total_reviews : ℚ)
  ∧ (stat20.is_low_percentage = true ↔ stat20.percentage < 5)
  ∧ (stat20.percentage = 5 → stat20.is_low_percentage = false)) := by
  have hp : stat20.percentage = 5 := by
    rw [show stat20.percentage = (((1 : ℕ) : ℚ) / ((20 : ℕ) : ℚ)) * 100 from rfl]
    norm_num
  have hl : stat20.is_low_percentage = false := by
    rw [show stat20.is_low_percentage =
      decide ((((1 : ℕ) : ℚ) / ((20 : ℕ) : ℚ)) * 100 < 5) from rfl]
    rw [decide_eq_false_iff_not]
    norm_num
  refine ⟨hp, hl, ?_⟩
  refine aspect_stat_percentage_and_low_flag df20 (analysisRows df20)
    (pivot_table (analysisRows df20)) stat20 (by rfl) ?_
  rw [show analysisRows df20 = [stat20] from rfl]
  exact List.mem_singleton.mpr rfl

/-- C2: per category, the counts of the emitted stat rows sum to the total
number of aspect tags (with duplicates) across that category's reviews. -/
theorem category_counts_sum_to_tag_total (df : List Review) (stats : List AspectStat)
    (piv : List PivotRow) (cat : String)
    (h : analyze_aspects df = some (stats, piv)) :
    ((stats.filter (fun r => decide (r.category = cat))).map (·.count)).sum =
      ((df.filter (fun r => decide (r.category = cat))).map (·.aspects_list.length)).sum := by
  obtain ⟨hs, -⟩ := analyze_aspects_some h
  subst hs
  rw [analysisRows, filter_flatMap_statBlock df cat _ (nodup_firstSeenDistinct _)]
  by_cases hmem : cat ∈ firstSeenDistinct (df.map (·.category))
  · rw [if_pos hmem, statBlock, List.map_map]
    exact sum_counts_countAspects _
  · rw [if_neg hmem]
    have hdf : df.filter (fun r => decide (r.category = cat)) = [] := by
      rw [List.filter_eq_nil_iff]
      intro a ha hcat
      have hac : a.category = cat := by simpa using hcat
      exact hmem ((mem_firstSeenDistinct _ _).mpr
        (List.mem_map.mpr ⟨a, ha, hac⟩))
    rw [hdf]
    simp

/-- C2 witness: the spec's worked example (two Electronics reviews with
three tags, one Hotel review with one tag). -/
theorem category_counts_sum_to_tag_total_witness :
    (((analysisRows dfEx).filter (fun r => decide (r.category = "E"))).map (·.count)).sum =
      ((dfEx.filter (fun r => decide (r.category = "E"))).map (·.aspects_list.length)).sum :=
  category_counts_sum_to_tag_total dfEx (analysisRows dfEx) (pivot_table (analysisRows dfEx))
    "E" (by rfl)

/-- C3 witness: the amended count/sort behavior at the duplicate-aspect
catalog row. -/
theorem aspect_freq_occurrence_counts_sorted_witness :
    (lookupKV (analyze_category_aspects dupAspectDf).aspect_counts "x" = some 2 ↔
      (((dupAspectDf.flatMap (·.aspects_parsed)).count "x" = 2) ∧ 0 < 2))
  ∧ (analyze_category_aspects dupAspectDf).aspect_freq.Pairwise (fun x y => y.2 ≤ x.2)
  ∧ (analyze_category_aspects dupAspectDf).aspect_freq.filter (fun e => decide (e.2 = 2)) =
      (analyze_category_aspects dupAspectDf).aspect_counts.filter (fun e => decide (e.2 = 2))
  ∧ (analyze_category_aspects dupAspectDf).aspect_counts.map (·.1) =
      firstSeenDistinct (dupAspectDf.flatMap (·.aspects_parsed)) :=
  aspect_freq_occurrence_counts_sorted dupAspectDf "x" 2 2
